import Mathlib

/-!
Verification of the caching / similarity pipeline of the gamelingo repository:
the Levenshtein dynamic program and text similarity
(src/screentranslate/utils.py), the LRU translation cache and the translation
coordinator (src/gamelingo/translate.py), and the OCR memoization wrapper
(src/gamelingo/ocr.py).

Modelling conventions: Python strings are `List Char`; Python floats are `ℚ`
(exact arithmetic); calls into external libraries (deep_translator,
pytesseract, PIL, hashlib) are oracle functions passed as parameters to the
embedded code, with `Option` results modelling raised exceptions.
-/

/-- Python `str.strip()` with no argument (trim outer whitespace), on
`List Char`.  Python strips the Unicode whitespace class; `Char.isWhitespace`
covers the ASCII part, which is all the repository relies on. -/
def pyStrip (s : List Char) : List Char :=
  ((s.dropWhile Char.isWhitespace).reverse.dropWhile Char.isWhitespace).reverse

/-- Python `str.lower()`, on `List Char` (ASCII case folding, matching
`Char.toLower`). -/
def pyLower (s : List Char) : List Char :=
  s.map Char.toLower

/-! ## Levenshtein distance: the source's dynamic program

`levenshtein_distance` in src/src/screentranslate/utils.py (lines 39-66)
computes a rolling-row dynamic program after swapping the arguments so the
first is the longer one.  `levInner` is the inner `for j, c2 in
enumerate(s2)` loop: it walks the remaining characters of `s2` together with
the aligned suffix of `previous_row`, carrying the last value appended to
`current_row`.  `levRows` is the outer `for i, c1 in enumerate(s1)` loop. -/

/-- Inner loop of the dynamic program.  At each step `p0 = previous_row[j]`,
`p1 = previous_row[j+1]`, and `cur = current_row[j]` (the value appended
last); the appended value is
`min(insertions, deletions, substitutions) = min(p1 + 1, cur + 1, p0 + (c1 != c2))`. -/
def levInner (c1 : Char) : List Char → List Nat → Nat → List Nat
  | c2 :: s2r, p0 :: p1 :: prest, cur =>
    let v := min (min (p1 + 1) (cur + 1)) (p0 + (if c1 ≠ c2 then 1 else 0))
    v :: levInner c1 s2r (p1 :: prest) v
  | _, _, _ => []

/-- Outer loop: row `i+1` starts with `i + 1` (`current_row = [i + 1]`) and is
completed by `levInner`; afterwards `previous_row = current_row`. -/
def levRows (s2 : List Char) : List Char → Nat → List Nat → List Nat
  | [], _, prev => prev
  | c1 :: s1r, i, prev => levRows s2 s1r (i + 1) ((i + 1) :: levInner c1 s2 prev (i + 1))

/-- Body of `levenshtein_distance` once the swap guard `len(s1) < len(s2)` is
out of the way: `if len(s2) == 0: return len(s1)`, then the rolling rows
starting from `previous_row = range(len(s2) + 1)`, returning
`previous_row[-1]`. -/
def levenshtein_main (s1 s2 : List Char) : Nat :=
  if s2.length = 0 then s1.length
  else (levRows s2 s1 0 (List.range (s2.length + 1))).getLastD 0

/-- `levenshtein_distance(s1, s2)` from src/src/screentranslate/utils.py.
The source's single recursive call `return levenshtein_distance(s2, s1)`
(taken exactly when `len(s1) < len(s2)`) re-enters the function with the
guard now false, so it is unfolded here into the main body on the swapped
arguments. -/
def levenshtein_distance (s1 s2 : List Char) : Nat :=
  if s1.length < s2.length then levenshtein_main s2 s1
  else levenshtein_main s1 s2

/-! ## Reference definition and edit-script semantics

`levRec` is the textbook recursion for Levenshtein distance; `EditStep` and
`Transforms` give the operational reading of the specification: a single
insertion, deletion or substitution of one character at an arbitrary
position, and chains thereof.  The main theorem shows the source's dynamic
program computes the least chain length. -/

/-- Textbook recursive Levenshtein distance on `List Char`. -/
def levRec : List Char → List Char → Nat
  | [], ys => ys.length
  | x :: xs, [] => (x :: xs).length
  | x :: xs, y :: ys =>
    min (min (levRec xs (y :: ys) + 1) (levRec (x :: xs) ys + 1))
      (levRec xs ys + (if x ≠ y then 1 else 0))
termination_by xs ys => xs.length + ys.length

/-- One single-character edit at an arbitrary position: insertion, deletion,
or substitution. -/
inductive EditStep : List Char → List Char → Prop
  | ins (u v : List Char) (c : Char) : EditStep (u ++ v) (u ++ c :: v)
  | del (u v : List Char) (c : Char) : EditStep (u ++ c :: v) (u ++ v)
  | sub (u v : List Char) (c d : Char) : EditStep (u ++ c :: v) (u ++ d :: v)

/-- `Transforms a b n`: some sequence of `n` single-character edits turns `a`
into `b`. -/
inductive Transforms : List Char → List Char → Nat → Prop
  | refl (a : List Char) : Transforms a a 0
  | step {a b c : List Char} {n : Nat} :
      EditStep a b → Transforms b c n → Transforms a c (n + 1)

theorem levRec_nil_left (ys : List Char) : levRec [] ys = ys.length := by
  cases ys <;> rw [levRec]

theorem levRec_nil_right (xs : List Char) : levRec xs [] = xs.length := by
  cases xs <;> rw [levRec]

theorem levRec_cons_cons (x y : Char) (xs ys : List Char) :
    levRec (x :: xs) (y :: ys) =
      min (min (levRec xs (y :: ys) + 1) (levRec (x :: xs) ys + 1))
        (levRec xs ys + (if x ≠ y then 1 else 0)) := by
  rw [levRec]

theorem levRec_self (a : List Char) : levRec a a = 0 := by
  induction a with
  | nil => rw [levRec]; rfl
  | cons x xs ih =>
    rw [levRec_cons_cons]
    simp [ih]

theorem EditStep.liftCons {a b : List Char} (x : Char) (h : EditStep a b) :
    EditStep (x :: a) (x :: b) := by
  cases h with
  | ins u v c => exact EditStep.ins (x :: u) v c
  | del u v c => exact EditStep.del (x :: u) v c
  | sub u v c d => exact EditStep.sub (x :: u) v c d

theorem Transforms.consLift {a b : List Char} {n : Nat} (x : Char)
    (h : Transforms a b n) : Transforms (x :: a) (x :: b) n := by
  induction h with
  | refl a => exact Transforms.refl _
  | step e _ ih => exact Transforms.step (e.liftCons x) ih

theorem Transforms.snoc {a b c : List Char} {n : Nat} (h : Transforms a b n)
    (e : EditStep b c) : Transforms a c (n + 1) := by
  induction h generalizing c with
  | refl a => exact Transforms.step e (Transforms.refl _)
  | step e0 _ ih => exact Transforms.step e0 (ih e)

theorem transforms_nil (ys : List Char) : Transforms [] ys ys.length := by
  induction ys with
  | nil => exact Transforms.refl _
  | cons y ys ih =>
    exact Transforms.step (EditStep.ins [] [] y) (ih.consLift y)

/-- The recursive Levenshtein distance is achieved by some edit sequence. -/
theorem levRec_achieved : ∀ a b : List Char, Transforms a b (levRec a b)
  | [], ys => by rw [levRec_nil_left]; exact transforms_nil ys
  | x :: xs, [] => by
    rw [levRec_nil_right]
    have h := levRec_achieved xs []
    rw [levRec_nil_right] at h
    exact Transforms.step (EditStep.del [] xs x) h
  | x :: xs, y :: ys => by
    have hA := levRec_achieved xs (y :: ys)
    have hB := levRec_achieved (x :: xs) ys
    have hC := levRec_achieved xs ys
    rw [levRec_cons_cons]
    have h3 :
        min (min (levRec xs (y :: ys) + 1) (levRec (x :: xs) ys + 1))
            (levRec xs ys + (if x ≠ y then 1 else 0)) = levRec xs (y :: ys) + 1 ∨
        min (min (levRec xs (y :: ys) + 1) (levRec (x :: xs) ys + 1))
            (levRec xs ys + (if x ≠ y then 1 else 0)) = levRec (x :: xs) ys + 1 ∨
        min (min (levRec xs (y :: ys) + 1) (levRec (x :: xs) ys + 1))
            (levRec xs ys + (if x ≠ y then 1 else 0)) =
          levRec xs ys + (if x ≠ y then 1 else 0) := by
      omega
    rcases h3 with h | h | h <;> rw [h]
    · exact Transforms.step (EditStep.del [] xs x) hA
    · exact hB.snoc (EditStep.ins [] ys y)
    · by_cases hxy : x = y
      · subst hxy
        simp only [ne_eq, not_true_eq_false, if_false, Nat.add_zero]
        exact hC.consLift x
      · rw [if_pos hxy]
        exact Transforms.step (EditStep.sub [] xs x y) (hC.consLift y)
termination_by a b => a.length + b.length
decreasing_by all_goals simp <;> omega

theorem levRec_le_cons_right (v b' : List Char) (y : Char) :
    levRec v (y :: b') ≤ levRec v b' + 1 := by
  cases v with
  | nil => rw [levRec_nil_left, levRec_nil_left]; simp
  | cons z v' => rw [levRec_cons_cons]; omega

theorem levRec_cons_left_le (c : Char) (v b : List Char) :
    levRec (c :: v) b ≤ levRec v b + 1 := by
  cases b with
  | nil => rw [levRec_nil_right, levRec_nil_right]; simp
  | cons y b' => rw [levRec_cons_cons]; omega

theorem levRec_le_cons_left (c : Char) (v : List Char) :
    ∀ b : List Char, levRec v b ≤ levRec (c :: v) b + 1 := by
  intro b
  induction b with
  | nil => rw [levRec_nil_right, levRec_nil_right]; simp only [List.length_cons]; omega
  | cons y b' ih =>
    have hA := levRec_le_cons_right v b' y
    rw [levRec_cons_cons]
    omega

theorem levRec_sub_le (c d : Char) (v : List Char) :
    ∀ b : List Char, levRec (c :: v) b ≤ levRec (d :: v) b + 1 := by
  intro b
  induction b with
  | nil => rw [levRec_nil_right, levRec_nil_right]; simp only [List.length_cons]; omega
  | cons y b' ih =>
    rw [levRec_cons_cons, levRec_cons_cons]
    have h1 : (if c ≠ y then 1 else 0) ≤ 1 := by split <;> omega
    omega

/-- A single edit at the head of the suffix: `m` becomes `m'` by deleting,
inserting or substituting the first character. -/
def HeadEdit (m m' : List Char) : Prop :=
  (∃ c v, m = c :: v ∧ m' = v) ∨ (∃ c v, m = v ∧ m' = c :: v) ∨
    (∃ c d v, m = c :: v ∧ m' = d :: v)

theorem levRec_headEdit_le {m m' : List Char} (hm : HeadEdit m m') :
    ∀ u b : List Char, levRec (u ++ m) b ≤ levRec (u ++ m') b + 1
  | [], b => by
    simp only [List.nil_append]
    rcases hm with ⟨c, v, h1, h2⟩ | ⟨c, v, h1, h2⟩ | ⟨c, d, v, h1, h2⟩ <;> rw [h1, h2]
    · exact levRec_cons_left_le c v b
    · exact levRec_le_cons_left c v b
    · exact levRec_sub_le c d v b
  | x :: u', [] => by
    rw [List.cons_append, levRec_nil_right, levRec_nil_right]
    have hlen : m.length ≤ m'.length + 1 := by
      rcases hm with ⟨c, v, h1, h2⟩ | ⟨c, v, h1, h2⟩ | ⟨c, d, v, h1, h2⟩ <;>
        rw [h1, h2] <;> simp only [List.length_cons] <;> omega
    simp only [List.length_cons, List.length_append]
    omega
  | x :: u', y :: b' => by
    have h1 := levRec_headEdit_le hm u' (y :: b')
    have h2 := levRec_headEdit_le hm (x :: u') b'
    have h3 := levRec_headEdit_le hm u' b'
    rw [List.cons_append, List.cons_append, levRec_cons_cons, levRec_cons_cons]
    rw [List.cons_append, List.cons_append] at h2
    omega
termination_by u b => u.length + b.length
decreasing_by all_goals simp <;> omega

theorem editStep_headEdit {a b : List Char} (e : EditStep a b) :
    ∃ u m m', a = u ++ m ∧ b = u ++ m' ∧ HeadEdit m m' := by
  cases e with
  | ins u v c => exact ⟨u, v, c :: v, rfl, rfl, Or.inr (Or.inl ⟨c, v, rfl, rfl⟩)⟩
  | del u v c => exact ⟨u, c :: v, v, rfl, rfl, Or.inl ⟨c, v, rfl, rfl⟩⟩
  | sub u v c d => exact ⟨u, c :: v, d :: v, rfl, rfl, Or.inr (Or.inr ⟨c, d, v, rfl, rfl⟩)⟩

theorem levRec_le_editStep {a b : List Char} (e : EditStep a b) (w : List Char) :
    levRec a w ≤ levRec b w + 1 := by
  obtain ⟨u, m, m', rfl, rfl, hm⟩ := editStep_headEdit e
  exact levRec_headEdit_le hm u w

/-- No edit sequence is shorter than the recursive Levenshtein distance. -/
theorem levRec_le_of_transforms {a b : List Char} {n : Nat}
    (h : Transforms a b n) : levRec a b ≤ n := by
  induction h with
  | refl a => rw [levRec_self]
  | step e _ ih =>
    exact le_trans (levRec_le_editStep e _) (Nat.add_le_add_right ih 1)

theorem EditStep.symmStep {a b : List Char} (e : EditStep a b) : EditStep b a := by
  cases e with
  | ins u v c => exact EditStep.del u v c
  | del u v c => exact EditStep.ins u v c
  | sub u v c d => exact EditStep.sub u v d c

theorem Transforms.symm {a b : List Char} {n : Nat} (h : Transforms a b n) :
    Transforms b a n := by
  induction h with
  | refl a => exact Transforms.refl a
  | step e _ ih => exact ih.snoc e.symmStep

theorem EditStep.revStep {a b : List Char} (e : EditStep a b) :
    EditStep a.reverse b.reverse := by
  cases e with
  | ins u v c =>
    have h1 : (u ++ v).reverse = v.reverse ++ u.reverse := by simp
    have h2 : (u ++ c :: v).reverse = v.reverse ++ c :: u.reverse := by simp
    rw [h1, h2]
    exact EditStep.ins v.reverse u.reverse c
  | del u v c =>
    have h1 : (u ++ v).reverse = v.reverse ++ u.reverse := by simp
    have h2 : (u ++ c :: v).reverse = v.reverse ++ c :: u.reverse := by simp
    rw [h1, h2]
    exact EditStep.del v.reverse u.reverse c
  | sub u v c d =>
    have h1 : (u ++ c :: v).reverse = v.reverse ++ c :: u.reverse := by simp
    have h2 : (u ++ d :: v).reverse = v.reverse ++ d :: u.reverse := by simp
    rw [h1, h2]
    exact EditStep.sub v.reverse u.reverse c d

theorem Transforms.rev {a b : List Char} {n : Nat} (h : Transforms a b n) :
    Transforms a.reverse b.reverse n := by
  induction h with
  | refl a => exact Transforms.refl _
  | step e _ ih => exact Transforms.step e.revStep ih

theorem levRec_symm (a b : List Char) : levRec a b = levRec b a :=
  Nat.le_antisymm (levRec_le_of_transforms (levRec_achieved b a).symm)
    (levRec_le_of_transforms (levRec_achieved a b).symm)

theorem levRec_reverse (a b : List Char) :
    levRec a.reverse b.reverse = levRec a b := by
  apply Nat.le_antisymm
  · have := levRec_le_of_transforms (levRec_achieved a b).rev
    exact this
  · have := levRec_le_of_transforms (levRec_achieved a.reverse b.reverse).rev
    simpa using this

/-! ## The dynamic program computes `levRec`

Row `i` of the dynamic program holds, at entry `j`, the distance between the
first `i` characters of `s1` and the first `j` characters of `s2`.  Because
`levRec` peels characters from the front, prefixes are represented reversed:
`rowTail a b s2r` lists the distances `levRec a ((s2r-prefix).reverse ++ b)`
for the nonempty prefixes of `s2r`. -/

def rowTail (a : List Char) : List Char → List Char → List Nat
  | _, [] => []
  | b, c :: s2r => levRec a (c :: b) :: rowTail a (c :: b) s2r

def rowSuffix (a b s2r : List Char) : List Nat :=
  levRec a b :: rowTail a b s2r

theorem levInner_rowSuffix (c1 : Char) :
    ∀ (s2r a b : List Char),
      levInner c1 s2r (rowSuffix a b s2r) (levRec (c1 :: a) b) =
        rowTail (c1 :: a) b s2r := by
  intro s2r
  induction s2r with
  | nil => intro a b; rfl
  | cons c s2r ih =>
    intro a b
    show (min (min (levRec a (c :: b) + 1) (levRec (c1 :: a) b + 1))
          (levRec a b + (if c1 ≠ c then 1 else 0))) ::
        levInner c1 s2r (rowSuffix a (c :: b) s2r)
          (min (min (levRec a (c :: b) + 1) (levRec (c1 :: a) b + 1))
            (levRec a b + (if c1 ≠ c then 1 else 0))) =
      levRec (c1 :: a) (c :: b) :: rowTail (c1 :: a) (c :: b) s2r
    rw [← levRec_cons_cons]
    rw [ih a (c :: b)]

theorem levRows_rowSuffix (s2 : List Char) :
    ∀ (s1r a : List Char),
      levRows s2 s1r (levRec a []) (rowSuffix a [] s2) =
        rowSuffix (s1r.reverse ++ a) [] s2 := by
  intro s1r
  induction s1r with
  | nil => intro a; rw [levRows]; simp
  | cons c1 s1r ih =>
    intro a
    show levRows s2 s1r (levRec a [] + 1)
        ((levRec a [] + 1) :: levInner c1 s2 (rowSuffix a [] s2) (levRec a [] + 1)) = _
    have h1 : levRec a [] + 1 = levRec (c1 :: a) [] := by
      rw [levRec_nil_right, levRec_nil_right]; rfl
    rw [h1, levInner_rowSuffix c1 s2 a []]
    have h2 : levRec (c1 :: a) [] :: rowTail (c1 :: a) [] s2 = rowSuffix (c1 :: a) [] s2 := rfl
    rw [h2, ih (c1 :: a)]
    simp

theorem rowSuffix_nil_left :
    ∀ (s2r b : List Char), rowSuffix [] b s2r = List.range' b.length (s2r.length + 1) := by
  intro s2r
  induction s2r with
  | nil =>
    intro b
    show [levRec [] b] = _
    rw [levRec_nil_left]
    simp [List.range']
  | cons c s2r ih =>
    intro b
    show levRec [] b :: rowSuffix [] (c :: b) s2r = _
    rw [levRec_nil_left, ih (c :: b)]
    simp only [List.length_cons, List.range'_succ]

theorem rowSuffix_getLastD :
    ∀ (s2r a b : List Char) (d : Nat),
      (rowSuffix a b s2r).getLastD d = levRec a (s2r.reverse ++ b) := by
  intro s2r
  induction s2r with
  | nil => intro a b d; show (levRec a b :: []).getLastD d = _; simp
  | cons c s2r ih =>
    intro a b d
    show (levRec a b :: rowSuffix a (c :: b) s2r).getLastD d = _
    rw [List.getLastD_cons, ih a (c :: b) (levRec a b)]
    simp

theorem levenshtein_main_eq (s1 s2 : List Char) :
    levenshtein_main s1 s2 = levRec s1 s2 := by
  rw [levenshtein_main]
  by_cases h2 : s2.length = 0
  · rw [if_pos h2]
    have h : s2 = [] := List.length_eq_zero.mp h2
    subst h
    rw [levRec_nil_right]
  · rw [if_neg h2]
    have hinit : List.range (s2.length + 1) = rowSuffix [] [] s2 := by
      rw [rowSuffix_nil_left s2 [], List.range_eq_range']
      rfl
    have h0 : (0 : Nat) = levRec ([] : List Char) [] := by rw [levRec_nil_right]; rfl
    rw [hinit, h0, levRows_rowSuffix s2 s1 [], rowSuffix_getLastD]
    simp [levRec_reverse]

theorem levenshtein_distance_eq_levRec (s1 s2 : List Char) :
    levenshtein_distance s1 s2 = levRec s1 s2 := by
  rw [levenshtein_distance]
  split
  · rw [levenshtein_main_eq, levRec_symm]
  · rw [levenshtein_main_eq]

/-- C5: `levenshtein_distance` (a total function) computes exactly the minimum
number of single-character insertions, deletions, or substitutions
transforming `a` into `b`; in particular `distance(a, a) = 0` and
`distance(a, "") = len(a)` for every string `a`. -/
theorem claim_C5_levenshtein_min_edits (a b : List Char) :
    IsLeast {n : Nat | Transforms a b n} (levenshtein_distance a b) ∧
      levenshtein_distance a a = 0 ∧ levenshtein_distance a [] = a.length := by
  refine ⟨⟨?_, ?_⟩, ?_, ?_⟩
  · show Transforms a b (levenshtein_distance a b)
    rw [levenshtein_distance_eq_levRec]
    exact levRec_achieved a b
  · intro n hn
    rw [levenshtein_distance_eq_levRec]
    exact levRec_le_of_transforms hn
  · rw [levenshtein_distance_eq_levRec, levRec_self]
  · rw [levenshtein_distance_eq_levRec, levRec_nil_right]


/-- Levenshtein distance never exceeds the length of the longer string. -/
theorem levRec_le_max : ∀ a b : List Char, levRec a b ≤ max a.length b.length
  | [], ys => by rw [levRec_nil_left]; simp
  | x :: xs, [] => by rw [levRec_nil_right]; simp
  | x :: xs, y :: ys => by
    have h := levRec_le_max xs ys
    have hd : (if x ≠ y then 1 else 0) ≤ 1 := by split <;> omega
    rw [levRec_cons_cons]
    simp only [List.length_cons]
    omega
termination_by a b => a.length + b.length
decreasing_by simp; omega

/-- `calculate_text_similarity_levenshtein(text1, text2)` from
src/src/screentranslate/utils.py (lines 69-94).  The source binds
`t1 = text1.strip().lower()`, `t2 = text2.strip().lower()`,
`distance = levenshtein_distance(t1, t2)` and `max_len = max(len(t1),
len(t2))` to locals; they are inlined here.  Python float arithmetic is
modelled as exact rational arithmetic. -/
def calculate_text_similarity_levenshtein (text1 text2 : List Char) : ℚ :=
  if text1 = [] ∨ text2 = [] then 0
  else if pyLower (pyStrip text1) = pyLower (pyStrip text2) then 1
  else if max (pyLower (pyStrip text1)).length (pyLower (pyStrip text2)).length = 0 then 0
  else 1 - (levenshtein_distance (pyLower (pyStrip text1)) (pyLower (pyStrip text2)) : ℚ) /
      ((max (pyLower (pyStrip text1)).length (pyLower (pyStrip text2)).length : Nat) : ℚ)

theorem similarity_bounds (text1 text2 : List Char) :
    0 ≤ calculate_text_similarity_levenshtein text1 text2 ∧
      calculate_text_similarity_levenshtein text1 text2 ≤ 1 := by
  rw [calculate_text_similarity_levenshtein]
  split
  · norm_num
  split
  · norm_num
  split
  · norm_num
  rename_i h1 h2 h3
  set t1 := pyLower (pyStrip text1) with ht1
  set t2 := pyLower (pyStrip text2) with ht2
  have hd : levenshtein_distance t1 t2 ≤ max t1.length t2.length := by
    rw [levenshtein_distance_eq_levRec]
    exact levRec_le_max t1 t2
  have hm : (0 : ℚ) < ((max t1.length t2.length : Nat) : ℚ) := by
    exact_mod_cast Nat.pos_of_ne_zero h3
  have hdiv0 : (0 : ℚ) ≤ (levenshtein_distance t1 t2 : ℚ) /
      ((max t1.length t2.length : Nat) : ℚ) := by positivity
  have hdiv1 : (levenshtein_distance t1 t2 : ℚ) /
      ((max t1.length t2.length : Nat) : ℚ) ≤ 1 := by
    rw [div_le_one hm]
    exact_mod_cast hd
  constructor <;> linarith

/-- C7: the similarity score always lies in [0.0, 1.0]; on the division path
this rests on the Levenshtein distance never exceeding the length of the
longer (normalized) string, which is stated as the third conjunct. -/
theorem claim_C7_similarity_range (text1 text2 a b : List Char) :
    0 ≤ calculate_text_similarity_levenshtein text1 text2 ∧
      calculate_text_similarity_levenshtein text1 text2 ≤ 1 ∧
      levenshtein_distance a b ≤ max a.length b.length := by
  refine ⟨(similarity_bounds text1 text2).1, (similarity_bounds text1 text2).2, ?_⟩
  rw [levenshtein_distance_eq_levRec]
  exact levRec_le_max a b

/-- C6 counterexample: the source checks the raw inputs for emptiness, not
the normalized ones, and two whitespace-only inputs normalize to the same
empty string and take the equality shortcut: the similarity of `" "` and
`" "` is 1.0, not the 0.0 the claim requires for inputs that are empty after
normalization. -/
theorem claim_C6_counterexample :
    calculate_text_similarity_levenshtein " ".data " ".data = 1 ∧
      pyStrip " ".data = [] ∧ (1 : ℚ) ≠ 0 := by
  refine ⟨by decide, by decide, by norm_num⟩

/-- C6 (amended): if either input is empty after normalization the similarity
is 0.0 — except when both raw inputs are nonempty and normalize identically
(both whitespace-only), in which case the equality shortcut returns 1.0. -/
theorem claim_C6_empty_normalized (text1 text2 : List Char)
    (h : pyLower (pyStrip text1) = [] ∨ pyLower (pyStrip text2) = []) :
    calculate_text_similarity_levenshtein text1 text2 =
      if text1 ≠ [] ∧ text2 ≠ [] ∧ pyLower (pyStrip text1) = pyLower (pyStrip text2)
      then 1 else 0 := by
  rw [calculate_text_similarity_levenshtein]
  by_cases h1 : text1 = [] ∨ text2 = []
  · rw [if_pos h1]
    rcases h1 with h1 | h1 <;> simp [h1]
  · rw [if_neg h1]
    push_neg at h1
    by_cases h2 : pyLower (pyStrip text1) = pyLower (pyStrip text2)
    · rw [if_pos h2, if_pos ⟨h1.1, h1.2, h2⟩]
    · rw [if_neg h2]
      have hrhs : ¬(text1 ≠ [] ∧ text2 ≠ [] ∧
          pyLower (pyStrip text1) = pyLower (pyStrip text2)) := by
        intro hc
        exact h2 hc.2.2
      rw [if_neg hrhs]
      rcases h with h | h
      · set t2 := pyLower (pyStrip text2) with ht2
        have ht2ne : t2 ≠ [] := by
          intro hh
          rw [h, hh] at h2
          exact h2 rfl
        have hlen : t2.length ≠ 0 := by
          simpa [List.length_eq_zero] using ht2ne
        rw [h]
        have hmax : max ([] : List Char).length t2.length = t2.length := by simp
        rw [hmax, if_neg hlen]
        have hdist : levenshtein_distance [] t2 = t2.length := by
          rw [levenshtein_distance_eq_levRec, levRec_nil_left]
        rw [hdist, div_self (by exact_mod_cast hlen)]
        norm_num
      · set t1 := pyLower (pyStrip text1) with ht1
        have ht1ne : t1 ≠ [] := by
          intro hh
          rw [h, hh] at h2
          exact h2 rfl
        have hlen : t1.length ≠ 0 := by
          simpa [List.length_eq_zero] using ht1ne
        rw [h]
        have hmax : max t1.length ([] : List Char).length = t1.length := by simp
        rw [hmax, if_neg hlen]
        have hdist : levenshtein_distance t1 [] = t1.length := by
          rw [levenshtein_distance_eq_levRec, levRec_nil_right]
        rw [hdist, div_self (by exact_mod_cast hlen)]
        norm_num

/-- Witness for the amended C6 at a concrete input: one whitespace-only
input against a nonempty one yields 0.0. -/
theorem claim_C6_witness :
    calculate_text_similarity_levenshtein " ".data "x".data =
      (if " ".data ≠ ([] : List Char) ∧ "x".data ≠ ([] : List Char) ∧
          pyLower (pyStrip " ".data) = pyLower (pyStrip "x".data)
        then (1 : ℚ) else 0) :=
  claim_C6_empty_normalized " ".data "x".data (Or.inl (by decide))


/-! ## The LRU translation cache

`TranslationCache` from src/src/gamelingo/translate.py (lines 11-59).  The
`OrderedDict` is modelled as an association list in iteration order: front =
least recently used, back = most recently used.  `move_to_end` removes the
key's entry and appends it; `popitem(last=False)` drops the front. -/

structure TranslationCache where
  max_size : Nat
  cache : List (List Char × List Char)
deriving DecidableEq

/-- Ordered-dict lookup: value of the first entry carrying the key. -/
def lookupKey (k : List Char) : List (List Char × List Char) → Option (List Char)
  | [] => none
  | p :: rest => if p.1 = k then some p.2 else lookupKey k rest

/-- `move_to_end(text)` (optionally combined with overwriting the value):
drop the key's entries and append `(k, v)` at the most-recently-used end. -/
def moveToEnd (k v : List Char) (l : List (List Char × List Char)) :
    List (List Char × List Char) :=
  l.filter (fun p => decide (p.1 ≠ k)) ++ [(k, v)]

/-- `TranslationCache.get` (lines 23-36): a hit moves the entry to the
most-recently-used end and returns its value; a miss leaves the cache
untouched and returns `None`. -/
def TranslationCache.get (c : TranslationCache) (text : List Char) :
    TranslationCache × Option (List Char) :=
  match lookupKey text c.cache with
  | some v => ({ c with cache := moveToEnd text v c.cache }, some v)
  | none => (c, none)

/-- `TranslationCache.put` (lines 38-55): an existing key is refreshed and
overwritten; a new key is appended (the source binds the grown dict once;
it is inlined here), and if the cache then exceeds `max_size` the
least-recently-used entry (the front) is evicted. -/
def TranslationCache.put (c : TranslationCache) (text translation : List Char) :
    TranslationCache :=
  match lookupKey text c.cache with
  | some _ => { c with cache := moveToEnd text translation c.cache }
  | none =>
    if c.max_size < (c.cache ++ [(text, translation)]).length then
      { c with cache := (c.cache ++ [(text, translation)]).tail }
    else { c with cache := c.cache ++ [(text, translation)] }

/-- `TranslationCache.clear` (lines 57-59). -/
def TranslationCache.clear (c : TranslationCache) : TranslationCache :=
  { c with cache := [] }

/-- `TranslationCache.__init__` (lines 14-21). -/
def emptyCache (n : Nat) : TranslationCache :=
  { max_size := n, cache := [] }

/-- The cache operations a client can perform. -/
inductive CacheOp where
  | get (k : List Char)
  | put (k v : List Char)
  | clear
deriving DecidableEq

def applyOp (c : TranslationCache) : CacheOp → TranslationCache
  | CacheOp.get k => (c.get k).1
  | CacheOp.put k v => c.put k v
  | CacheOp.clear => c.clear

def runOps : TranslationCache → List CacheOp → TranslationCache
  | c, [] => c
  | c, op :: rest => runOps (applyOp c op) rest

def keys (l : List (List Char × List Char)) : List (List Char) :=
  l.map Prod.fst

theorem lookupKey_eq_none (k : List Char) :
    ∀ l, lookupKey k l = none ↔ ∀ p ∈ l, p.1 ≠ k := by
  intro l
  induction l with
  | nil => simp [lookupKey]
  | cons p rest ih =>
    rw [lookupKey]
    by_cases hp : p.1 = k
    · simp [hp]
    · simp [hp, ih]

theorem length_filter_lt_of_lookupKey {k v : List Char} :
    ∀ {l}, lookupKey k l = some v →
      (l.filter (fun p => decide (p.1 ≠ k))).length < l.length := by
  intro l
  induction l with
  | nil => intro h; simp [lookupKey] at h
  | cons p rest ih =>
    intro h
    rw [lookupKey] at h
    by_cases hp : p.1 = k
    · have hd : (decide (p.1 ≠ k)) = false := by simp [hp]
      have hle := List.length_filter_le (fun p => decide (p.1 ≠ k)) rest
      rw [List.filter_cons, hd]
      simp only [List.length_cons, Bool.false_eq_true, if_false]
      omega
    · have hd : (decide (p.1 ≠ k)) = true := by simp [hp]
      rw [if_neg hp] at h
      have hrec := ih h
      rw [List.filter_cons, hd]
      simp only [List.length_cons, if_true]
      omega

theorem keys_filter_sublist (k : List Char) (l : List (List Char × List Char)) :
    List.Sublist (keys (l.filter (fun p => decide (p.1 ≠ k)))) (keys l) :=
  List.Sublist.map Prod.fst (List.filter_sublist l)

theorem not_mem_keys_filter (k : List Char) (l : List (List Char × List Char)) :
    k ∉ keys (l.filter (fun p => decide (p.1 ≠ k))) := by
  intro hk
  rw [keys, List.mem_map] at hk
  obtain ⟨p, hp, hpk⟩ := hk
  rw [List.mem_filter] at hp
  have h2 := hp.2
  simp only [decide_eq_true_eq] at h2
  exact h2 hpk

theorem keys_moveToEnd_nodup {l : List (List Char × List Char)} (k v : List Char)
    (h : (keys l).Nodup) : (keys (moveToEnd k v l)).Nodup := by
  rw [moveToEnd, keys, List.map_append, List.nodup_append]
  refine ⟨(keys_filter_sublist k l).nodup h, List.nodup_singleton _, ?_⟩
  intro a ha hb
  simp only [List.map_cons, List.map_nil, List.mem_singleton] at hb
  rw [hb] at ha
  exact not_mem_keys_filter k l ha

/-- The cache invariant of C2: bounded size and unique keys. -/
def CacheInv (N : Nat) (c : TranslationCache) : Prop :=
  c.max_size = N ∧ c.cache.length ≤ N ∧ (keys c.cache).Nodup

theorem CacheInv_applyOp {N : Nat} {c : TranslationCache} (op : CacheOp)
    (h : CacheInv N c) : CacheInv N (applyOp c op) := by
  obtain ⟨hm, hlen, hnd⟩ := h
  cases op with
  | get k =>
    show CacheInv N (c.get k).1
    cases hl : lookupKey k c.cache with
    | none =>
      simp only [TranslationCache.get, hl]
      exact ⟨hm, hlen, hnd⟩
    | some v =>
      simp only [TranslationCache.get, hl]
      refine ⟨hm, ?_, keys_moveToEnd_nodup k v hnd⟩
      have hlt := length_filter_lt_of_lookupKey hl
      rw [moveToEnd, List.length_append]
      simp only [List.length_cons, List.length_nil]
      omega
  | put k v =>
    show CacheInv N (c.put k v)
    cases hl : lookupKey k c.cache with
    | some w =>
      simp only [TranslationCache.put, hl]
      refine ⟨hm, ?_, keys_moveToEnd_nodup k v hnd⟩
      have hlt := length_filter_lt_of_lookupKey hl
      rw [moveToEnd, List.length_append]
      simp only [List.length_cons, List.length_nil]
      omega
    | none =>
      simp only [TranslationCache.put, hl]
      have hk : k ∉ keys c.cache := by
        intro hk
        rw [keys, List.mem_map] at hk
        obtain ⟨p, hp, hpk⟩ := hk
        exact ((lookupKey_eq_none k c.cache).mp hl p hp) hpk
      have hnd2 : (keys (c.cache ++ [(k, v)])).Nodup := by
        rw [keys, List.map_append, List.nodup_append]
        refine ⟨hnd, List.nodup_singleton _, ?_⟩
        intro a ha hb
        simp only [List.map_cons, List.map_nil, List.mem_singleton] at hb
        rw [hb] at ha
        exact hk ha
      split
      · rename_i hover
        refine ⟨hm, ?_, ?_⟩
        · rw [List.length_tail, List.length_append]
          simp only [List.length_cons, List.length_nil]
          omega
        · exact (List.Sublist.map Prod.fst (List.tail_sublist (c.cache ++ [(k, v)]))).nodup hnd2
      · rename_i hfits
        rw [List.length_append] at hfits
        refine ⟨hm, ?_, hnd2⟩
        rw [List.length_append]
        simp only [List.length_cons, List.length_nil] at hfits ⊢
        omega
  | clear =>
    show CacheInv N c.clear
    refine ⟨hm, ?_, ?_⟩ <;> simp [TranslationCache.clear, keys]

theorem CacheInv_runOps (N : Nat) (ops : List CacheOp) :
    ∀ {c : TranslationCache}, CacheInv N c → CacheInv N (runOps c ops) := by
  induction ops with
  | nil => intro c h; exact h
  | cons op rest ih => intro c h; exact ih (CacheInv_applyOp op h)

/-- C2: starting from an empty cache of capacity `N ≥ 1`, after any finite
sequence of `get`/`put`/`clear` operations (hence after each operation of any
such sequence) the cache holds at most `N` entries and its keys are pairwise
distinct. -/
theorem claim_C2_bounded_unique (N : Nat) (ops : List CacheOp) (_hN : 1 ≤ N) :
    (runOps (emptyCache N) ops).cache.length ≤ N ∧
      (keys (runOps (emptyCache N) ops).cache).Nodup := by
  have h := @CacheInv_runOps N ops (emptyCache N)
    ⟨rfl, by simp [emptyCache], by simp [emptyCache, keys]⟩
  exact ⟨h.2.1, h.2.2⟩

/-- Witness for C2 at a concrete input: capacity 1, three puts. -/
theorem claim_C2_witness :
    (runOps (emptyCache 1) [CacheOp.put "a".data "x".data,
        CacheOp.put "b".data "y".data, CacheOp.put "a".data "z".data]).cache.length ≤ 1 ∧
      (keys (runOps (emptyCache 1) [CacheOp.put "a".data "x".data,
        CacheOp.put "b".data "y".data, CacheOp.put "a".data "z".data]).cache).Nodup :=
  claim_C2_bounded_unique 1 [CacheOp.put "a".data "x".data,
    CacheOp.put "b".data "y".data, CacheOp.put "a".data "z".data] (by norm_num)

/-! ## Recency instrumentation for the LRU eviction claim

`CacheT` runs the same code as `TranslationCache` but each entry also carries
the logical time of its last touch (its insertion, overwrite, or get-hit),
and `clock` counts operations.  `CacheT.toCache` erases the instrumentation
and commutes with every operation, so facts about `CacheT` recency are facts
about the source cache's iteration order. -/

structure CacheT where
  max_size : Nat
  entries : List (List Char × List Char × Nat)
  clock : Nat
deriving DecidableEq

def lookupKeyT (k : List Char) :
    List (List Char × List Char × Nat) → Option (List Char × Nat)
  | [] => none
  | p :: rest => if p.1 = k then some p.2 else lookupKeyT k rest

def CacheT.get (c : CacheT) (text : List Char) : CacheT × Option (List Char) :=
  match lookupKeyT text c.entries with
  | some v =>
    ({ c with
        entries := c.entries.filter (fun p => decide (p.1 ≠ text)) ++ [(text, v.1, c.clock)],
        clock := c.clock + 1 }, some v.1)
  | none => ({ c with clock := c.clock + 1 }, none)

def CacheT.put (c : CacheT) (text translation : List Char) : CacheT :=
  match lookupKeyT text c.entries with
  | some _ =>
    { c with
        entries := c.entries.filter (fun p => decide (p.1 ≠ text)) ++
          [(text, translation, c.clock)],
        clock := c.clock + 1 }
  | none =>
    if c.max_size < (c.entries ++ [(text, translation, c.clock)]).length then
      { c with
          entries := (c.entries ++ [(text, translation, c.clock)]).tail,
          clock := c.clock + 1 }
    else
      { c with
          entries := c.entries ++ [(text, translation, c.clock)],
          clock := c.clock + 1 }

def CacheT.clear (c : CacheT) : CacheT :=
  { c with entries := [], clock := c.clock + 1 }

def applyOpT (c : CacheT) : CacheOp → CacheT
  | CacheOp.get k => (c.get k).1
  | CacheOp.put k v => c.put k v
  | CacheOp.clear => c.clear

def runOpsT : CacheT → List CacheOp → CacheT
  | c, [] => c
  | c, op :: rest => runOpsT (applyOpT c op) rest

def emptyCacheT (n : Nat) : CacheT :=
  { max_size := n, entries := [], clock := 0 }

/-- Forget the instrumentation. -/
def CacheT.toCache (c : CacheT) : TranslationCache :=
  { max_size := c.max_size, cache := c.entries.map (fun p => (p.1, p.2.1)) }

def keysT (l : List (List Char × List Char × Nat)) : List (List Char) :=
  l.map Prod.fst

def touches (l : List (List Char × List Char × Nat)) : List Nat :=
  l.map (fun p => p.2.2)

theorem lookupKey_map_proj (k : List Char) :
    ∀ l : List (List Char × List Char × Nat),
      lookupKey k (l.map (fun p => (p.1, p.2.1))) = (lookupKeyT k l).map Prod.fst := by
  intro l
  induction l with
  | nil => rfl
  | cons p rest ih =>
    rw [List.map_cons, lookupKey, lookupKeyT]
    by_cases hp : p.1 = k
    · simp [hp]
    · simp [hp, ih]

theorem filter_map_proj (k : List Char) (l : List (List Char × List Char × Nat)) :
    (l.map (fun p => (p.1, p.2.1))).filter (fun p => decide (p.1 ≠ k)) =
      (l.filter (fun p => decide (p.1 ≠ k))).map (fun p => (p.1, p.2.1)) := by
  induction l with
  | nil => rfl
  | cons p rest ih =>
    by_cases hp : p.1 = k
    · have hd : (decide (p.1 ≠ k)) = false := by simp [hp]
      simp only [List.map_cons, List.filter_cons, hd]
      simpa using ih
    · have hd : (decide (p.1 ≠ k)) = true := by simp [hp]
      simp only [List.map_cons, List.filter_cons, hd]
      simpa using ih

theorem TranslationCache.get_of_none {c : TranslationCache} {k : List Char}
    (h : lookupKey k c.cache = none) : c.get k = (c, none) := by
  simp only [TranslationCache.get, h]

theorem TranslationCache.get_of_some {c : TranslationCache} {k v : List Char}
    (h : lookupKey k c.cache = some v) :
    c.get k = ({ c with cache := moveToEnd k v c.cache }, some v) := by
  simp only [TranslationCache.get, h]

theorem TranslationCache.put_of_some {c : TranslationCache} {k v w : List Char}
    (h : lookupKey k c.cache = some w) :
    c.put k v = { c with cache := moveToEnd k v c.cache } := by
  simp only [TranslationCache.put, h]

theorem TranslationCache.put_of_none {c : TranslationCache} {k v : List Char}
    (h : lookupKey k c.cache = none) :
    c.put k v =
      if c.max_size < (c.cache ++ [(k, v)]).length then
        { c with cache := (c.cache ++ [(k, v)]).tail }
      else { c with cache := c.cache ++ [(k, v)] } := by
  simp only [TranslationCache.put, h]

theorem CacheT.getT_of_none {c : CacheT} {k : List Char}
    (h : lookupKeyT k c.entries = none) :
    c.get k = ({ c with clock := c.clock + 1 }, none) := by
  simp only [CacheT.get, h]

theorem CacheT.getT_of_some {c : CacheT} {k : List Char} {v : List Char × Nat}
    (h : lookupKeyT k c.entries = some v) :
    c.get k = ({ c with
        entries := c.entries.filter (fun p => decide (p.1 ≠ k)) ++ [(k, v.1, c.clock)],
        clock := c.clock + 1 }, some v.1) := by
  simp only [CacheT.get, h]

theorem CacheT.putT_of_some {c : CacheT} {k v : List Char} {w : List Char × Nat}
    (h : lookupKeyT k c.entries = some w) :
    c.put k v = { c with
        entries := c.entries.filter (fun p => decide (p.1 ≠ k)) ++ [(k, v, c.clock)],
        clock := c.clock + 1 } := by
  simp only [CacheT.put, h]

theorem CacheT.putT_of_none {c : CacheT} {k v : List Char}
    (h : lookupKeyT k c.entries = none) :
    c.put k v =
      if c.max_size < (c.entries ++ [(k, v, c.clock)]).length then
        { c with
            entries := (c.entries ++ [(k, v, c.clock)]).tail,
            clock := c.clock + 1 }
      else
        { c with
            entries := c.entries ++ [(k, v, c.clock)],
            clock := c.clock + 1 } := by
  simp only [CacheT.put, h]

theorem lookupKey_toCache (c : CacheT) (k : List Char) :
    lookupKey k c.toCache.cache = (lookupKeyT k c.entries).map Prod.fst := by
  show lookupKey k (c.entries.map (fun p => (p.1, p.2.1))) = _
  rw [lookupKey_map_proj]

theorem toCache_get (c : CacheT) (k : List Char) :
    (c.get k).1.toCache = (c.toCache.get k).1 ∧ (c.get k).2 = (c.toCache.get k).2 := by
  cases hl : lookupKeyT k c.entries with
  | none =>
    have h2 : lookupKey k c.toCache.cache = none := by rw [lookupKey_toCache, hl]; rfl
    rw [CacheT.getT_of_none hl, TranslationCache.get_of_none h2]
    exact ⟨rfl, rfl⟩
  | some v =>
    have h2 : lookupKey k c.toCache.cache = some v.1 := by rw [lookupKey_toCache, hl]; rfl
    rw [CacheT.getT_of_some hl, TranslationCache.get_of_some h2]
    have hlist : (c.entries.filter (fun p => decide (p.1 ≠ k)) ++ [(k, v.1, c.clock)]).map
        (fun p => (p.1, p.2.1)) = moveToEnd k v.1 (c.entries.map (fun p => (p.1, p.2.1))) := by
      rw [moveToEnd, List.map_append, filter_map_proj]
      rfl
    exact ⟨congrArg (TranslationCache.mk c.max_size) hlist, rfl⟩

theorem toCache_put (c : CacheT) (k v : List Char) :
    (c.put k v).toCache = c.toCache.put k v := by
  cases hl : lookupKeyT k c.entries with
  | some w =>
    have h2 : lookupKey k c.toCache.cache = some w.1 := by rw [lookupKey_toCache, hl]; rfl
    rw [CacheT.putT_of_some hl, TranslationCache.put_of_some h2]
    have hlist : (c.entries.filter (fun p => decide (p.1 ≠ k)) ++ [(k, v, c.clock)]).map
        (fun p => (p.1, p.2.1)) = moveToEnd k v (c.entries.map (fun p => (p.1, p.2.1))) := by
      rw [moveToEnd, List.map_append, filter_map_proj]
      rfl
    exact congrArg (TranslationCache.mk c.max_size) hlist
  | none =>
    have h2 : lookupKey k c.toCache.cache = none := by rw [lookupKey_toCache, hl]; rfl
    rw [CacheT.putT_of_none hl, TranslationCache.put_of_none h2]
    have hlen : (c.toCache.cache ++ [(k, v)]).length =
        (c.entries ++ [(k, v, c.clock)]).length := by
      show (c.entries.map (fun p => (p.1, p.2.1)) ++ [(k, v)]).length = _
      simp
    by_cases hover : c.max_size < (c.entries ++ [(k, v, c.clock)]).length
    · rw [if_pos hover, if_pos (by rw [hlen]; exact hover)]
      have hlist : ((c.entries ++ [(k, v, c.clock)]).tail).map (fun p => (p.1, p.2.1)) =
          (c.entries.map (fun p => (p.1, p.2.1)) ++ [(k, v)]).tail := by
        cases c.entries <;> simp
      exact congrArg (TranslationCache.mk c.max_size) hlist
    · rw [if_neg hover, if_neg (by rw [hlen]; exact hover)]
      have hlist : (c.entries ++ [(k, v, c.clock)]).map (fun p => (p.1, p.2.1)) =
          c.entries.map (fun p => (p.1, p.2.1)) ++ [(k, v)] := by
        simp
      exact congrArg (TranslationCache.mk c.max_size) hlist

theorem toCache_applyOp (c : CacheT) (op : CacheOp) :
    (applyOpT c op).toCache = applyOp c.toCache op := by
  cases op with
  | get k => exact (toCache_get c k).1
  | put k v => exact toCache_put c k v
  | clear => rfl

theorem toCache_runOps : ∀ (ops : List CacheOp) (c : CacheT),
    (runOpsT c ops).toCache = runOps c.toCache ops := by
  intro ops
  induction ops with
  | nil => intro c; rfl
  | cons op rest ih =>
    intro c
    rw [runOpsT, runOps, ← toCache_applyOp]
    exact ih (applyOpT c op)

/-! ## The recency invariant and the LRU eviction theorem -/

/-- Along the iteration order, last-touch times strictly increase, and all
lie below the clock: the front entry is always the least recently touched. -/
def RecencyInv (c : CacheT) : Prop :=
  List.Pairwise (· < ·) (touches c.entries) ∧ ∀ p ∈ c.entries, p.2.2 < c.clock

theorem touches_filter_pairwise {l : List (List Char × List Char × Nat)} (k : List Char)
    (h : List.Pairwise (· < ·) (touches l)) :
    List.Pairwise (· < ·) (touches (l.filter (fun p => decide (p.1 ≠ k)))) := by
  rw [touches, List.pairwise_map] at h ⊢
  exact List.Pairwise.sublist (List.filter_sublist l) h

theorem pairwise_touches_append {l : List (List Char × List Char × Nat)}
    {k v : List Char} {t : Nat}
    (h : List.Pairwise (· < ·) (touches l)) (hb : ∀ p ∈ l, p.2.2 < t) :
    List.Pairwise (· < ·) (touches (l ++ [(k, v, t)])) := by
  rw [touches, List.map_append, List.pairwise_append]
  refine ⟨h, by simp, ?_⟩
  intro a ha b hb2
  simp only [List.map_cons, List.map_nil, List.mem_singleton] at hb2
  rw [List.mem_map] at ha
  obtain ⟨p, hp, hpa⟩ := ha
  rw [hb2, ← hpa]
  exact hb p hp

theorem RecencyInv_applyOp {c : CacheT} (op : CacheOp) (h : RecencyInv c) :
    RecencyInv (applyOpT c op) := by
  obtain ⟨hp, hb⟩ := h
  cases op with
  | get k =>
    show RecencyInv (c.get k).1
    cases hl : lookupKeyT k c.entries with
    | none =>
      rw [CacheT.getT_of_none hl]
      exact ⟨hp, fun p hm => Nat.lt_succ_of_lt (hb p hm)⟩
    | some v =>
      rw [CacheT.getT_of_some hl]
      refine ⟨pairwise_touches_append (touches_filter_pairwise k hp)
        (fun p hm => hb p (List.mem_of_mem_filter hm)), ?_⟩
      intro p hm
      rcases List.mem_append.mp hm with hm | hm
      · exact Nat.lt_succ_of_lt (hb p (List.mem_of_mem_filter hm))
      · simp only [List.mem_singleton] at hm
        rw [hm]
        exact Nat.lt_succ_self _
  | put k v =>
    show RecencyInv (c.put k v)
    cases hl : lookupKeyT k c.entries with
    | some w =>
      rw [CacheT.putT_of_some hl]
      refine ⟨pairwise_touches_append (touches_filter_pairwise k hp)
        (fun p hm => hb p (List.mem_of_mem_filter hm)), ?_⟩
      intro p hm
      rcases List.mem_append.mp hm with hm | hm
      · exact Nat.lt_succ_of_lt (hb p (List.mem_of_mem_filter hm))
      · simp only [List.mem_singleton] at hm
        rw [hm]
        exact Nat.lt_succ_self _
    | none =>
      rw [CacheT.putT_of_none hl]
      have happ : List.Pairwise (· < ·) (touches (c.entries ++ [(k, v, c.clock)])) :=
        pairwise_touches_append hp hb
      have hbnd : ∀ p ∈ c.entries ++ [(k, v, c.clock)], p.2.2 < c.clock + 1 := by
        intro p hm
        rcases List.mem_append.mp hm with hm | hm
        · exact Nat.lt_succ_of_lt (hb p hm)
        · simp only [List.mem_singleton] at hm
          rw [hm]
          exact Nat.lt_succ_self _
      by_cases hover : c.max_size < (c.entries ++ [(k, v, c.clock)]).length
      · rw [if_pos hover]
        refine ⟨?_, ?_⟩
        · rw [touches, List.pairwise_map] at happ ⊢
          exact List.Pairwise.sublist (List.tail_sublist _) happ
        · intro p hm
          exact hbnd p (List.mem_of_mem_tail hm)
      · rw [if_neg hover]
        exact ⟨happ, hbnd⟩
  | clear =>
    show RecencyInv c.clear
    exact ⟨by rw [CacheT.clear]; exact List.Pairwise.nil, by intro p hm; simp [CacheT.clear] at hm⟩

theorem max_size_applyOpT (c : CacheT) (op : CacheOp) :
    (applyOpT c op).max_size = c.max_size := by
  cases op with
  | get k =>
    show (c.get k).1.max_size = c.max_size
    cases hl : lookupKeyT k c.entries with
    | none => rw [CacheT.getT_of_none hl]
    | some v => rw [CacheT.getT_of_some hl]
  | put k v =>
    show (c.put k v).max_size = c.max_size
    cases hl : lookupKeyT k c.entries with
    | some w => rw [CacheT.putT_of_some hl]
    | none =>
      rw [CacheT.putT_of_none hl]
      by_cases hover : c.max_size < (c.entries ++ [(k, v, c.clock)]).length
      · rw [if_pos hover]
      · rw [if_neg hover]
  | clear => rfl

theorem max_size_runOpsT (ops : List CacheOp) :
    ∀ c : CacheT, (runOpsT c ops).max_size = c.max_size := by
  induction ops with
  | nil => intro c; rfl
  | cons op rest ih =>
    intro c
    rw [runOpsT, ih, max_size_applyOpT]

theorem RecencyInv_runOpsT (ops : List CacheOp) :
    ∀ {c : CacheT}, RecencyInv c → RecencyInv (runOpsT c ops) := by
  induction ops with
  | nil => intro c h; exact h
  | cons op rest ih => intro c h; exact ih (RecencyInv_applyOp op h)

theorem head_touch_min {l : List (List Char × List Char × Nat)}
    (hp : List.Pairwise (· < ·) (touches l)) :
    ∀ e0, l.head? = some e0 → ∀ e ∈ l, e0.2.2 ≤ e.2.2 := by
  intro e0 h0 e he
  cases l with
  | nil => simp at h0
  | cons p rest =>
    rw [List.head?_cons, Option.some.injEq] at h0
    subst h0
    rw [touches, List.map_cons, List.pairwise_cons] at hp
    rcases List.mem_cons.mp he with he | he
    · rw [he]
    · exact le_of_lt (hp.1 e.2.2 (List.mem_map_of_mem _ he))

theorem keysT_get_hit_last (c : CacheT) (k : List Char)
    (h : (lookupKeyT k c.entries).isSome = true) :
    (keysT (c.get k).1.entries).getLast? = some k := by
  cases hl : lookupKeyT k c.entries with
  | none => rw [hl] at h; simp at h
  | some v =>
    rw [CacheT.getT_of_some hl]
    show (keysT (c.entries.filter (fun p => decide (p.1 ≠ k)) ++
      [(k, v.1, c.clock)])).getLast? = some k
    rw [keysT, List.map_append]
    exact List.getLast?_concat _

theorem keysT_put_last (c : CacheT) (hms : 1 ≤ c.max_size) (k v : List Char) :
    (keysT (c.put k v).entries).getLast? = some k := by
  cases hl : lookupKeyT k c.entries with
  | some w =>
    rw [CacheT.putT_of_some hl]
    show (keysT (c.entries.filter (fun p => decide (p.1 ≠ k)) ++
      [(k, v, c.clock)])).getLast? = some k
    rw [keysT, List.map_append]
    exact List.getLast?_concat _
  | none =>
    rw [CacheT.putT_of_none hl]
    by_cases hover : c.max_size < (c.entries ++ [(k, v, c.clock)]).length
    · rw [if_pos hover]
      cases hE : c.entries with
      | nil =>
        rw [hE] at hover
        simp at hover
        omega
      | cons e rest =>
        show (keysT (rest ++ [(k, v, c.clock)])).getLast? = some k
        rw [keysT, List.map_append]
        exact List.getLast?_concat _
    · rw [if_neg hover]
      show (keysT (c.entries ++ [(k, v, c.clock)])).getLast? = some k
      rw [keysT, List.map_append]
      exact List.getLast?_concat _

/-- C1: the translation cache is LRU.  For a cache of capacity `N ≥ 1`
reached from empty by any operation sequence, a `put` of an absent key on a
full cache appends the new entry at the most-recently-used end and evicts
exactly the front entry, which has the oldest last-touch time (last `put` or
get-hit); a get-hit and a put always leave the touched key at the
most-recently-used end; the instrumented run erases to the source cache
operations; and the two concrete capacity-2 sequences of the claim evaluate
as stated: `put a, put b, get a, put c` leaves keys `[a, c]` (b evicted) and
`put a, put b, put c` leaves keys `[b, c]` (a evicted). -/
theorem claim_C1_lru_eviction (N : Nat) (ops : List CacheOp) (k v : List Char)
    (hN : 1 ≤ N)
    (hfull : (runOpsT (emptyCacheT N) ops).entries.length = N)
    (hnew : lookupKeyT k (runOpsT (emptyCacheT N) ops).entries = none) :
    ((runOpsT (emptyCacheT N) ops).put k v).entries =
        (runOpsT (emptyCacheT N) ops).entries.tail ++
          [(k, v, (runOpsT (emptyCacheT N) ops).clock)] ∧
      (∀ e0, (runOpsT (emptyCacheT N) ops).entries.head? = some e0 →
        ∀ e ∈ (runOpsT (emptyCacheT N) ops).entries, e0.2.2 ≤ e.2.2) ∧
      (∀ c : CacheT, ∀ k1 : List Char, (lookupKeyT k1 c.entries).isSome = true →
        (keysT (c.get k1).1.entries).getLast? = some k1) ∧
      (∀ c : CacheT, 1 ≤ c.max_size → ∀ k1 v1 : List Char,
        (keysT (c.put k1 v1).entries).getLast? = some k1) ∧
      (runOpsT (emptyCacheT N) ops).toCache = runOps (emptyCache N) ops ∧
      keys (runOps (emptyCache 2) [CacheOp.put "a".data "A".data,
        CacheOp.put "b".data "B".data, CacheOp.get "a".data,
        CacheOp.put "c".data "C".data]).cache = ["a".data, "c".data] ∧
      keys (runOps (emptyCache 2) [CacheOp.put "a".data "A".data,
        CacheOp.put "b".data "B".data, CacheOp.put "c".data "C".data]).cache =
        ["b".data, "c".data] := by
  have hms : (runOpsT (emptyCacheT N) ops).max_size = N := max_size_runOpsT ops _
  have hinv : RecencyInv (runOpsT (emptyCacheT N) ops) :=
    RecencyInv_runOpsT ops ⟨List.Pairwise.nil, by intro p hp; simp [emptyCacheT] at hp⟩
  refine ⟨?_, ?_, keysT_get_hit_last, fun c hc k1 v1 => keysT_put_last c hc k1 v1, ?_, ?_, ?_⟩
  · rw [CacheT.putT_of_none hnew]
    have hover : (runOpsT (emptyCacheT N) ops).max_size <
        ((runOpsT (emptyCacheT N) ops).entries ++
          [(k, v, (runOpsT (emptyCacheT N) ops).clock)]).length := by
      rw [List.length_append, hms, hfull]
      simp
    rw [if_pos hover]
    cases hE : (runOpsT (emptyCacheT N) ops).entries with
    | nil =>
      rw [hE] at hfull
      simp at hfull
      omega
    | cons e rest => rfl
  · intro e0 h0 e he
    exact head_touch_min hinv.1 e0 h0 e he
  · rw [toCache_runOps]
    rfl
  · decide
  · decide

/-- Witness for C1 at a concrete input: capacity 2, `put a, put b`, then a
put of the absent key `c` evicts the front entry. -/
theorem claim_C1_witness :
    ((runOpsT (emptyCacheT 2) [CacheOp.put "a".data "A".data,
        CacheOp.put "b".data "B".data]).put "c".data "C".data).entries =
      (runOpsT (emptyCacheT 2) [CacheOp.put "a".data "A".data,
        CacheOp.put "b".data "B".data]).entries.tail ++
        [("c".data, "C".data, (runOpsT (emptyCacheT 2) [CacheOp.put "a".data "A".data,
          CacheOp.put "b".data "B".data]).clock)] :=
  (claim_C1_lru_eviction 2 [CacheOp.put "a".data "A".data, CacheOp.put "b".data "B".data]
    "c".data "C".data (by norm_num) (by decide) (by decide)).1

/-! ## The translation coordinator

`Translator` from src/src/gamelingo/translate.py (lines 62-178).  The
language fields and the `deep_translator` handle are irrelevant to the
translation pipeline logic; the external provider (`self.translator.translate`
together with the lazy re-initialisation, lines 124-132) is an oracle
`provider : List Char → Option (List Char)`, `none` modelling any exception
caught by the `except` block at line 143.  `translate` returns the new
state, the returned string, and whether the provider was invoked. -/

structure Translator where
  source_lang : List Char
  target_lang : List Char
  similarity_threshold : ℚ
  cache : TranslationCache
  last_source_text : List Char
  last_translation : List Char
deriving DecidableEq

/-- `Translator.translate` (lines 94-151).  The source's two nested guards
`if not force and self._last_source_text:` and `if similarity >= threshold:`
are flattened into one conjunction (the similarity computation has no side
effects).  `text.strip()` is evaluated once, as in the source. -/
def Translator.translate (provider : List Char → Option (List Char))
    (s : Translator) (text : List Char) (force : Bool) :
    Translator × List Char × Bool :=
  if text = [] ∨ pyStrip text = [] then (s, [], false)
  else
    if force = false ∧ s.last_source_text ≠ [] ∧
        s.similarity_threshold ≤
          calculate_text_similarity_levenshtein (pyStrip text) s.last_source_text then
      (s, s.last_translation, false)
    else
      match (s.cache.get (pyStrip text)).2 with
      | some cached =>
        ({ s with
            cache := (s.cache.get (pyStrip text)).1,
            last_source_text := pyStrip text,
            last_translation := cached }, cached, false)
      | none =>
        match provider (pyStrip text) with
        | some translation =>
          ({ s with
              cache := ((s.cache.get (pyStrip text)).1).put (pyStrip text) translation,
              last_source_text := pyStrip text,
              last_translation := translation }, translation, true)
        | none =>
          if s.last_translation ≠ [] then
            ({ s with cache := (s.cache.get (pyStrip text)).1 },
              s.last_translation ++ " [error]".data, true)
          else ({ s with cache := (s.cache.get (pyStrip text)).1 }, pyStrip text, true)

/-- `Translator.__init__` (lines 65-92) with the given threshold and cache
size and empty last-seen state. -/
def mkTranslator (source_lang target_lang : List Char) (cache_size : Nat)
    (similarity_threshold : ℚ) : Translator :=
  { source_lang := source_lang, target_lang := target_lang,
    similarity_threshold := similarity_threshold,
    cache := emptyCache cache_size,
    last_source_text := [], last_translation := [] }

theorem lookupKey_filter_self (k : List Char) :
    ∀ l : List (List Char × List Char),
      lookupKey k (l.filter (fun p => decide (p.1 ≠ k))) = none := by
  intro l
  induction l with
  | nil => rfl
  | cons p rest ih =>
    by_cases hp : p.1 = k
    · have hd : (decide (p.1 ≠ k)) = false := by simp [hp]
      rw [List.filter_cons, hd]
      simpa using ih
    · have hd : (decide (p.1 ≠ k)) = true := by simp [hp]
      rw [List.filter_cons, hd]
      simp only [if_true]
      rw [lookupKey, if_neg hp]
      exact ih

theorem lookupKey_append_right {k : List Char} {l1 : List (List Char × List Char)}
    (h : lookupKey k l1 = none) (l2 : List (List Char × List Char)) :
    lookupKey k (l1 ++ l2) = lookupKey k l2 := by
  induction l1 with
  | nil => rfl
  | cons p rest ih =>
    rw [lookupKey] at h
    by_cases hp : p.1 = k
    · rw [if_pos hp] at h
      exact absurd h (by simp)
    · rw [if_neg hp] at h
      rw [List.cons_append, lookupKey, if_neg hp]
      exact ih h

theorem lookupKey_singleton_self (k v : List Char) :
    lookupKey k [(k, v)] = some v := by
  rw [lookupKey, if_pos rfl]

theorem lookupKey_moveToEnd_self (k v : List Char) (l : List (List Char × List Char)) :
    lookupKey k (moveToEnd k v l) = some v := by
  rw [moveToEnd, lookupKey_append_right (lookupKey_filter_self k l),
    lookupKey_singleton_self]

/-- On a miss, `get` leaves the cache untouched. -/
theorem TranslationCache.get_miss_fst {c : TranslationCache} {k : List Char}
    (h : (c.get k).2 = none) : (c.get k).1 = c := by
  cases hl : lookupKey k c.cache with
  | none => rw [TranslationCache.get_of_none hl]
  | some v => rw [TranslationCache.get_of_some hl] at h; exact absurd h (by simp)

/-! ### Path equations for `Translator.translate` -/

theorem translate_empty {provider : List Char → Option (List Char)} {s : Translator}
    {text : List Char} {force : Bool} (h : text = [] ∨ pyStrip text = []) :
    Translator.translate provider s text force = (s, [], false) := by
  rw [Translator.translate, if_pos h]

theorem translate_sc {provider : List Char → Option (List Char)} {s : Translator}
    {text : List Char} (h1 : pyStrip text ≠ []) (h2 : s.last_source_text ≠ [])
    (h3 : s.similarity_threshold ≤
      calculate_text_similarity_levenshtein (pyStrip text) s.last_source_text) :
    Translator.translate provider s text false = (s, s.last_translation, false) := by
  rw [Translator.translate]
  rw [if_neg (by
    intro hc
    rcases hc with hc | hc
    · exact h1 (by rw [hc]; rfl)
    · exact h1 hc)]
  rw [if_pos ⟨rfl, h2, h3⟩]

theorem translate_hit {provider : List Char → Option (List Char)} {s : Translator}
    {text cached : List Char} {force : Bool}
    (h1 : ¬(text = [] ∨ pyStrip text = []))
    (h2 : ¬(force = false ∧ s.last_source_text ≠ [] ∧ s.similarity_threshold ≤
      calculate_text_similarity_levenshtein (pyStrip text) s.last_source_text))
    (h3 : (s.cache.get (pyStrip text)).2 = some cached) :
    Translator.translate provider s text force =
      ({ s with
          cache := (s.cache.get (pyStrip text)).1,
          last_source_text := pyStrip text,
          last_translation := cached }, cached, false) := by
  rw [Translator.translate, if_neg h1, if_neg h2, h3]

theorem translate_provider_success {provider : List Char → Option (List Char)}
    {s : Translator} {text tr : List Char} {force : Bool}
    (h1 : ¬(text = [] ∨ pyStrip text = []))
    (h2 : ¬(force = false ∧ s.last_source_text ≠ [] ∧ s.similarity_threshold ≤
      calculate_text_similarity_levenshtein (pyStrip text) s.last_source_text))
    (h3 : (s.cache.get (pyStrip text)).2 = none)
    (h4 : provider (pyStrip text) = some tr) :
    Translator.translate provider s text force =
      ({ s with
          cache := ((s.cache.get (pyStrip text)).1).put (pyStrip text) tr,
          last_source_text := pyStrip text,
          last_translation := tr }, tr, true) := by
  rw [Translator.translate, if_neg h1, if_neg h2, h3, h4]

theorem translate_provider_failure {provider : List Char → Option (List Char)}
    {s : Translator} {text : List Char} {force : Bool}
    (h1 : ¬(text = [] ∨ pyStrip text = []))
    (h2 : ¬(force = false ∧ s.last_source_text ≠ [] ∧ s.similarity_threshold ≤
      calculate_text_similarity_levenshtein (pyStrip text) s.last_source_text))
    (h3 : (s.cache.get (pyStrip text)).2 = none)
    (h4 : provider (pyStrip text) = none) :
    Translator.translate provider s text force =
      (s, (if s.last_translation ≠ [] then s.last_translation ++ " [error]".data
        else pyStrip text), true) := by
  rw [Translator.translate, if_neg h1, if_neg h2, h3, h4]
  rw [TranslationCache.get_miss_fst h3]
  by_cases hlt : s.last_translation ≠ []
  · rw [if_pos hlt, if_pos hlt]
  · rw [if_neg hlt, if_neg hlt]

/-- C3 counterexample: the claim quantifies over every Translator state, but
with threshold 0.0 and a whitespace-only input its hypotheses hold (force is
false, `last_source_text` is nonempty, and the similarity of the stripped
input to it — 0.0 — reaches the threshold), yet `translate` returns `""`
rather than `last_translation`: the empty-input guard precedes the
short-circuit. -/
theorem claim_C3_counterexample :
    ((0 : ℚ) ≤ calculate_text_similarity_levenshtein (pyStrip " ".data) "x".data) ∧
      ("x".data : List Char) ≠ [] ∧
      Translator.translate (fun _ => none)
        { source_lang := "it".data, target_lang := "en".data,
          similarity_threshold := 0, cache := emptyCache 100,
          last_source_text := "x".data, last_translation := "y".data }
        " ".data false =
        ({ source_lang := "it".data, target_lang := "en".data,
           similarity_threshold := 0, cache := emptyCache 100,
           last_source_text := "x".data, last_translation := "y".data }, [], false) ∧
      ([] : List Char) ≠ "y".data := by
  exact ⟨by decide, by decide, by decide, by decide⟩

/-- C3 (amended): when additionally the input is nonempty after stripping —
the only situation the counterexample excludes — the similarity short-circuit
behaves exactly as claimed: `translate` returns `last_translation`, the whole
state (the cache included, so nothing is read, reordered or added) is
unchanged, and the provider is not invoked. -/
theorem claim_C3_short_circuit (provider : List Char → Option (List Char))
    (s : Translator) (text : List Char)
    (h1 : pyStrip text ≠ [])
    (h2 : s.last_source_text ≠ [])
    (h3 : s.similarity_threshold ≤
      calculate_text_similarity_levenshtein (pyStrip text) s.last_source_text) :
    Translator.translate provider s text false = (s, s.last_translation, false) :=
  translate_sc h1 h2 h3

set_option maxRecDepth 8192 in
/-- The similarity of "ciao bella" to "ciao bella!" is 10/11, which clears
the default threshold 0.85.  (The rational arithmetic is evaluated by
`norm_num`; the Levenshtein distance itself by the kernel.) -/
theorem sim_ciao_ge :
    (85/100 : ℚ) ≤
      calculate_text_similarity_levenshtein (pyStrip "ciao bella".data) "ciao bella!".data := by
  rw [show pyStrip "ciao bella".data = "ciao bella".data from by decide]
  rw [calculate_text_similarity_levenshtein]
  rw [if_neg (by decide), if_neg (by decide), if_neg (by decide)]
  rw [show levenshtein_distance (pyLower (pyStrip "ciao bella".data))
    (pyLower (pyStrip "ciao bella!".data)) = 1 from by decide]
  rw [show (max (pyLower (pyStrip "ciao bella".data)).length
    (pyLower (pyStrip "ciao bella!".data)).length : Nat) = 11 from by decide]
  norm_num

set_option maxRecDepth 8192 in
/-- Witness for the amended C3 at a concrete input: after translating
"ciao bella!", the near-identical "ciao bella" (similarity 10/11 ≥ 0.85) is
short-circuited. -/
theorem claim_C3_witness :
    Translator.translate (fun _ => none)
      { source_lang := "it".data, target_lang := "en".data,
        similarity_threshold := 85/100, cache := emptyCache 100,
        last_source_text := "ciao bella!".data, last_translation := "hello".data }
      "ciao bella".data false =
      ({ source_lang := "it".data, target_lang := "en".data,
         similarity_threshold := 85/100, cache := emptyCache 100,
         last_source_text := "ciao bella!".data, last_translation := "hello".data },
        "hello".data, false) :=
  claim_C3_short_circuit (fun _ => none) _ "ciao bella".data
    (by decide) (by decide) sim_ciao_ge

/-- C4: on the provider-failure path (nonempty input, short-circuit not
taken, cache miss, provider raises) `translate` — a total function, so no
exception propagates — returns `last_translation ++ " [error]"` when
`last_translation` is nonempty and the stripped original text otherwise, and
the state is completely unchanged: `last_source_text`, `last_translation`
and the cache keep their values. -/
theorem claim_C4_provider_failure (provider : List Char → Option (List Char))
    (s : Translator) (text : List Char) (force : Bool)
    (h1 : pyStrip text ≠ [])
    (h2 : force = true ∨ ¬(s.last_source_text ≠ [] ∧ s.similarity_threshold ≤
      calculate_text_similarity_levenshtein (pyStrip text) s.last_source_text))
    (h3 : (s.cache.get (pyStrip text)).2 = none)
    (h4 : provider (pyStrip text) = none) :
    Translator.translate provider s text force =
      (s, (if s.last_translation ≠ [] then s.last_translation ++ " [error]".data
        else pyStrip text), true) := by
  refine translate_provider_failure ?_ ?_ h3 h4
  · intro hc
    rcases hc with hc | hc
    · exact h1 (by rw [hc]; rfl)
    · exact h1 hc
  · intro hc
    rcases h2 with h2 | h2
    · rw [h2] at hc
      exact absurd hc.1 (by decide)
    · exact h2 hc.2

/-- Witness for C4 at a concrete input: fresh state, failing provider; the
original stripped text comes back and the state is untouched. -/
theorem claim_C4_witness :
    Translator.translate (fun _ => none) (mkTranslator "it".data "en".data 100 (85/100))
      " ciao ".data false =
      (mkTranslator "it".data "en".data 100 (85/100),
        (if (mkTranslator "it".data "en".data 100 (85/100)).last_translation ≠ []
          then (mkTranslator "it".data "en".data 100 (85/100)).last_translation ++ " [error]".data
          else pyStrip " ciao ".data), true) :=
  claim_C4_provider_failure (fun _ => none) (mkTranslator "it".data "en".data 100 (85/100))
    " ciao ".data false (by decide) (Or.inr (by decide)) (by decide) rfl

theorem TranslationCache.get_snd_eq (c : TranslationCache) (k : List Char) :
    (c.get k).2 = lookupKey k c.cache := by
  cases hl : lookupKey k c.cache with
  | none => rw [TranslationCache.get_of_none hl]
  | some v => rw [TranslationCache.get_of_some hl]

/-- After a fresh insertion of an absent key into a cache with capacity at
least 1, the key is found. -/
theorem lookupKey_put_self {c : TranslationCache} {k v : List Char}
    (hms : 1 ≤ c.max_size) (h : lookupKey k c.cache = none) :
    lookupKey k (c.put k v).cache = some v := by
  rw [TranslationCache.put_of_none h]
  by_cases hover : c.max_size < (c.cache ++ [(k, v)]).length
  · rw [if_pos hover]
    cases hE : c.cache with
    | nil =>
      rw [hE] at hover
      simp at hover
      omega
    | cons e rest =>
      show lookupKey k (rest ++ [(k, v)]) = some v
      have hrest : lookupKey k rest = none := by
        rw [hE, lookupKey] at h
        by_cases hek : e.1 = k
        · rw [if_pos hek] at h
          exact absurd h (by simp)
        · rwa [if_neg hek] at h
      rw [lookupKey_append_right hrest, lookupKey_singleton_self]
  · rw [if_neg hover]
    show lookupKey k (c.cache ++ [(k, v)]) = some v
    rw [lookupKey_append_right h, lookupKey_singleton_self]

/-- C8 counterexample: the source's cache key is the *stripped* text only —
it is not case folded.  "Ciao" and "ciao" normalize identically in the
claim's sense (strip + case fold), the first forced call succeeds, yet the
second forced call invokes the provider again (third component `true`)
instead of returning the cached translation. -/
theorem claim_C8_counterexample :
    pyLower (pyStrip "Ciao".data) = pyLower (pyStrip "ciao".data) ∧
      (Translator.translate
        (fun t => if t = "Ciao".data then some "Hello".data
          else if t = "ciao".data then some "salut".data else none)
        ((Translator.translate
          (fun t => if t = "Ciao".data then some "Hello".data
            else if t = "ciao".data then some "salut".data else none)
          (mkTranslator "it".data "en".data 100 (85/100)) "Ciao".data true).1)
        "ciao".data true).2.2 = true := by
  exact ⟨by decide, by decide⟩

/-- C8 (amended): two raw strings that *strip* identically are the same
cache key: after a successful forced translation of `a` (cache hit or
provider success), a forced translation of `b` with `strip(b) = strip(a)`
returns that same result from the cache without invoking the provider.
(Case folding plays no role in cache keying; it only happens inside the
similarity comparison.) -/
theorem claim_C8_strip_cache_key (provider : List Char → Option (List Char))
    (s : Translator) (a b : List Char)
    (h0 : 1 ≤ s.cache.max_size)
    (h1 : pyStrip a ≠ [])
    (h2 : pyStrip b = pyStrip a)
    (h3 : (s.cache.get (pyStrip a)).2 ≠ none ∨ provider (pyStrip a) ≠ none) :
    (Translator.translate provider
        (Translator.translate provider s a true).1 b true).2.1 =
      (Translator.translate provider s a true).2.1 ∧
      (Translator.translate provider
        (Translator.translate provider s a true).1 b true).2.2 = false := by
  have hg1 : ¬(a = [] ∨ pyStrip a = []) := by
    intro hc
    rcases hc with hc | hc
    · exact h1 (by rw [hc]; rfl)
    · exact h1 hc
  have hg2 : ¬(b = [] ∨ pyStrip b = []) := by
    intro hc
    rcases hc with hc | hc
    · rw [hc] at h2
      exact h1 (by rw [← h2]; rfl)
    · rw [h2] at hc
      exact h1 hc
  have hforce : ∀ s' : Translator, ¬((true : Bool) = false ∧ s'.last_source_text ≠ [] ∧
      s'.similarity_threshold ≤
        calculate_text_similarity_levenshtein (pyStrip b) s'.last_source_text) := by
    intro s' hc
    exact absurd hc.1 (by decide)
  have hforceA : ∀ s' : Translator, ¬((true : Bool) = false ∧ s'.last_source_text ≠ [] ∧
      s'.similarity_threshold ≤
        calculate_text_similarity_levenshtein (pyStrip a) s'.last_source_text) := by
    intro s' hc
    exact absurd hc.1 (by decide)
  cases hcget : (s.cache.get (pyStrip a)).2 with
  | some cached =>
    rw [translate_hit hg1 (hforceA s) hcget]
    have hlook : lookupKey (pyStrip a) s.cache.cache = some cached := by
      rw [← TranslationCache.get_snd_eq]
      exact hcget
    have hcget2 : (((s.cache.get (pyStrip a)).1).get (pyStrip b)).2 = some cached := by
      rw [TranslationCache.get_of_some hlook, TranslationCache.get_snd_eq, h2]
      show lookupKey (pyStrip a) (moveToEnd (pyStrip a) cached s.cache.cache) = some cached
      exact lookupKey_moveToEnd_self (pyStrip a) cached s.cache.cache
    rw [translate_hit hg2 (hforce _) hcget2]
    exact ⟨rfl, rfl⟩
  | none =>
    cases hp : provider (pyStrip a) with
    | none =>
      rcases h3 with h3 | h3
      · exact absurd hcget h3
      · exact absurd hp h3
    | some tr =>
      rw [translate_provider_success hg1 (hforceA s) hcget hp]
      have hmiss : (s.cache.get (pyStrip a)).1 = s.cache :=
        TranslationCache.get_miss_fst hcget
      have hlook : lookupKey (pyStrip a) s.cache.cache = none := by
        rw [← TranslationCache.get_snd_eq]
        exact hcget
      have hcget2 : ((((s.cache.get (pyStrip a)).1).put (pyStrip a) tr).get (pyStrip b)).2 =
          some tr := by
        rw [hmiss, TranslationCache.get_snd_eq, h2]
        exact lookupKey_put_self h0 hlook
      rw [translate_hit hg2 (hforce _) hcget2]
      exact ⟨rfl, rfl⟩

/-- Witness for the amended C8 at a concrete input: `" ciao"` and `"ciao "`
strip to the same key; the second forced call is served from the cache. -/
theorem claim_C8_witness :
    (Translator.translate (fun t => if t = "ciao".data then some "hello".data else none)
        (Translator.translate (fun t => if t = "ciao".data then some "hello".data else none)
          (mkTranslator "it".data "en".data 100 (85/100)) " ciao".data true).1
        "ciao ".data true).2.1 =
      (Translator.translate (fun t => if t = "ciao".data then some "hello".data else none)
        (mkTranslator "it".data "en".data 100 (85/100)) " ciao".data true).2.1 ∧
      (Translator.translate (fun t => if t = "ciao".data then some "hello".data else none)
        (Translator.translate (fun t => if t = "ciao".data then some "hello".data else none)
          (mkTranslator "it".data "en".data 100 (85/100)) " ciao".data true).1
        "ciao ".data true).2.2 = false :=
  claim_C8_strip_cache_key (fun t => if t = "ciao".data then some "hello".data else none)
    (mkTranslator "it".data "en".data 100 (85/100)) " ciao".data "ciao ".data
    (by decide) (by decide) (by decide) (Or.inr (by decide))

/-- Concrete provider for the C9 counterexample. -/
def p9 : List Char → Option (List Char) :=
  fun t => if t = "ciao bella!".data then some "hello pretty".data else none

set_option maxRecDepth 8192 in
/-- C9 counterexample: after translating "ciao bella!" (provider success),
translating the near-identical "ciao bella" is served by the similarity
short-circuit; it returns the previous translation but `last_source_text`
still holds `"ciao bella!"`, not the normalized input `"ciao bella"` of the
reusing call, contradicting the claim that state is mutated after *every*
reused translation. -/
theorem claim_C9_counterexample :
    (Translator.translate p9
        (Translator.translate p9 (mkTranslator "it".data "en".data 100 (85/100))
          "ciao bella!".data false).1 "ciao bella".data false).2.1 =
      (Translator.translate p9 (mkTranslator "it".data "en".data 100 (85/100))
        "ciao bella!".data false).1.last_translation ∧
      (Translator.translate p9
        (Translator.translate p9 (mkTranslator "it".data "en".data 100 (85/100))
          "ciao bella!".data false).1 "ciao bella".data false).1.last_source_text ≠
        pyStrip "ciao bella".data := by
  have e1 := @translate_provider_success p9
    (mkTranslator "it".data "en".data 100 (85/100)) "ciao bella!".data
    "hello pretty".data false
    (by decide) (by intro hc; exact hc.2.1 (by decide)) (by decide) (by decide)
  rw [e1]
  have e2 := @translate_sc p9
    { mkTranslator "it".data "en".data 100 (85/100) with
      cache := (((mkTranslator "it".data "en".data 100 (85/100)).cache.get
        (pyStrip "ciao bella!".data)).1).put (pyStrip "ciao bella!".data)
          "hello pretty".data,
      last_source_text := pyStrip "ciao bella!".data,
      last_translation := "hello pretty".data }
    "ciao bella".data
    (by decide) (by decide) (by exact sim_ciao_ge)
  rw [e2]
  exact ⟨rfl, by decide⟩

/-- C9 (amended): `CoordinatorState` is mutated after every *fresh or
cache-served* translation — `last_source_text` becomes the normalized input
and `last_translation` the returned string — while on the similarity
short-circuit path the state is left entirely unchanged: the returned string
still equals `last_translation` (the call returns it), but
`last_source_text` keeps the previous call's normalized text. -/
theorem claim_C9_state_update (provider : List Char → Option (List Char))
    (s : Translator) (text : List Char) (force : Bool) :
    (pyStrip text ≠ [] →
      (force = true ∨ ¬(s.last_source_text ≠ [] ∧ s.similarity_threshold ≤
        calculate_text_similarity_levenshtein (pyStrip text) s.last_source_text)) →
      ((s.cache.get (pyStrip text)).2 ≠ none ∨ provider (pyStrip text) ≠ none) →
      ((Translator.translate provider s text force).1.last_source_text = pyStrip text ∧
        (Translator.translate provider s text force).1.last_translation =
          (Translator.translate provider s text force).2.1)) ∧
      (pyStrip text ≠ [] → force = false → s.last_source_text ≠ [] →
        s.similarity_threshold ≤
          calculate_text_similarity_levenshtein (pyStrip text) s.last_source_text →
        Translator.translate provider s text force = (s, s.last_translation, false)) := by
  constructor
  · intro h1 h2 h3
    have hg1 : ¬(text = [] ∨ pyStrip text = []) := by
      intro hc
      rcases hc with hc | hc
      · exact h1 (by rw [hc]; rfl)
      · exact h1 hc
    have hg2 : ¬(force = false ∧ s.last_source_text ≠ [] ∧ s.similarity_threshold ≤
        calculate_text_similarity_levenshtein (pyStrip text) s.last_source_text) := by
      intro hc
      rcases h2 with h2 | h2
      · rw [h2] at hc
        exact absurd hc.1 (by decide)
      · exact h2 hc.2
    cases hcget : (s.cache.get (pyStrip text)).2 with
    | some cached =>
      rw [translate_hit hg1 hg2 hcget]
      exact ⟨rfl, rfl⟩
    | none =>
      cases hp : provider (pyStrip text) with
      | none =>
        rcases h3 with h3 | h3
        · exact absurd hcget h3
        · exact absurd hp h3
      | some tr =>
        rw [translate_provider_success hg1 hg2 hcget hp]
        exact ⟨rfl, rfl⟩
  · intro h1 hf h2 h3
    subst hf
    exact translate_sc h1 h2 h3

/-! ## OCR memoization

`OCREngine` from src/src/gamelingo/ocr.py.  PIL images are a width, a height
and the raw pixel bytes that `tobytes()` yields; `hashlib.md5(...).hexdigest()`
is an oracle `md5hex` (C10 needs only that it is a function of the bytes);
`preprocess_image_for_ocr` (pure PIL resizing/enhancement) is an oracle
`pre`, `none` modelling an exception reaching the generic handler at line
138; `pytesseract.image_to_string` at a given PSM mode is an oracle `tess`,
`none` modelling the per-iteration exception caught at line 120. -/

structure PyImage where
  width : Nat
  height : Nat
  bytes : List Nat
deriving DecidableEq

structure OCREngine where
  preprocess : Bool
  last_text : List Char
  last_image_hash : Option (List Char)
deriving DecidableEq

/-- `calculate_image_hash` (src/src/screentranslate/utils.py lines 97-108):
the digest of the image's raw bytes. -/
def calculate_image_hash (md5hex : List Nat → List Char) (image : PyImage) :
    List Char :=
  md5hex image.bytes

/-- Python `str.split()` (split on whitespace runs, no empty pieces); the
accumulator carries the current word reversed. -/
def pySplit : List Char → List Char → List (List Char)
  | [], acc => if acc = [] then [] else [acc.reverse]
  | c :: rest, acc =>
    if c.isWhitespace then
      if acc = [] then pySplit rest [] else acc.reverse :: pySplit rest []
    else pySplit rest (c :: acc)

/-- Python `str.replace` with a single-character pattern. -/
def pyReplaceChar (old new : Char) (s : List Char) : List Char :=
  s.map (fun c => if c = old then new else c)

/-- `text.replace('ï¼', '0')` from `clean_ocr_text`: the two-character
pattern `ï` `¼` is replaced left-to-right without overlap. -/
def pyReplaceFw : List Char → List Char
  | 'ï' :: '¼' :: rest => '0' :: pyReplaceFw rest
  | c :: rest => c :: pyReplaceFw rest
  | [] => []

/-- `clean_ocr_text` (src/src/screentranslate/utils.py lines 144-165):
whitespace collapse, `|`→`I`, `ï¼`→`0`, outer strip. -/
def clean_ocr_text (text : List Char) : List Char :=
  if text = [] then []
  else pyStrip (pyReplaceFw (pyReplaceChar '|' 'I'
    (List.intercalate [' '] (pySplit text []))))

/-- PSM mode selection (ocr.py lines 75-91): the float comparison
`aspect_ratio > 0.3` with `aspect_ratio = height / width` (1.0 when the
width is 0) is the exact rational comparison `10 * height > 3 * width`. -/
def psmModes (img : PyImage) : List Nat :=
  if (if 0 < img.width then 3 * img.width < 10 * img.height else True) then [6, 3, 7]
  else [7, 6, 3]

/-- The `for psm in psm_modes` loop (lines 96-122): a raised exception
(`tess _ _ = none`) continues; a cleaned nonempty text is recorded in
`all_results`, and only the FIRST mode both sets `best_text` and breaks.
Returns `(best_text, all_results)`. -/
def ocrLoop (tess : PyImage → Nat → Option (List Char)) (processed : PyImage)
    (first : Nat) : List Nat → List Char × List (Nat × List Char)
  | [] => ([], [])
  | psm :: rest =>
    match tess processed psm with
    | none => ocrLoop tess processed first rest
    | some raw =>
      if pyStrip (clean_ocr_text raw) ≠ [] then
        if psm = first then (clean_ocr_text raw, [(psm, clean_ocr_text raw)])
        else
          ((ocrLoop tess processed first rest).1,
            (psm, clean_ocr_text raw) :: (ocrLoop tess processed first rest).2)
      else ocrLoop tess processed first rest

/-- Python `max(values, key=len)`: the first value of maximal length. -/
def maxByLen : List (List Char) → List Char
  | [] => []
  | x :: rest => rest.foldl (fun acc y => if acc.length < y.length then y else acc) x

/-- `best_text` after the loop including the `if not best_text and
all_results` fallback (lines 124-127). -/
def ocrBest (tess : PyImage → Nat → Option (List Char)) (processed : PyImage) :
    List Char :=
  if (ocrLoop tess processed ((psmModes processed).headD 0) (psmModes processed)).1 = [] ∧
      (ocrLoop tess processed ((psmModes processed).headD 0) (psmModes processed)).2 ≠ [] then
    maxByLen ((ocrLoop tess processed ((psmModes processed).headD 0)
      (psmModes processed)).2.map Prod.snd)
  else (ocrLoop tess processed ((psmModes processed).headD 0) (psmModes processed)).1

/-- `OCREngine.extract_text` (ocr.py lines 53-140).  Returns the new engine
state, the extracted text, whether tesseract was invoked, and whether the
generic exception handler fired (preprocessing raised).  The early return at
lines 63-66 compares the fresh hash with the stored one. -/
def OCREngine.extract_text (e : OCREngine) (md5hex : List Nat → List Char)
    (pre : PyImage → Option PyImage) (tess : PyImage → Nat → Option (List Char))
    (image : PyImage) : OCREngine × List Char × Bool × Bool :=
  if e.last_image_hash = some (calculate_image_hash md5hex image) then
    (e, e.last_text, false, false)
  else
    match (if e.preprocess then pre image else some image) with
    | none => (e, [], false, true)
    | some processed =>
      ({ e with
          last_text := ocrBest tess processed,
          last_image_hash := some (calculate_image_hash md5hex image) },
        ocrBest tess processed, true, false)

theorem extract_text_hash_hit {e : OCREngine} {md5hex : List Nat → List Char}
    {pre : PyImage → Option PyImage} {tess : PyImage → Nat → Option (List Char)}
    {image : PyImage}
    (h : e.last_image_hash = some (calculate_image_hash md5hex image)) :
    e.extract_text md5hex pre tess image = (e, e.last_text, false, false) := by
  rw [OCREngine.extract_text, if_pos h]

theorem extract_text_pre_fail {e : OCREngine} {md5hex : List Nat → List Char}
    {pre : PyImage → Option PyImage} {tess : PyImage → Nat → Option (List Char)}
    {image : PyImage}
    (h : ¬ e.last_image_hash = some (calculate_image_hash md5hex image))
    (hpre : (if e.preprocess then pre image else some image) = none) :
    e.extract_text md5hex pre tess image = (e, [], false, true) := by
  rw [OCREngine.extract_text, if_neg h, hpre]

theorem extract_text_run {e : OCREngine} {md5hex : List Nat → List Char}
    {pre : PyImage → Option PyImage} {tess : PyImage → Nat → Option (List Char)}
    {image processed : PyImage}
    (h : ¬ e.last_image_hash = some (calculate_image_hash md5hex image))
    (hpre : (if e.preprocess then pre image else some image) = some processed) :
    e.extract_text md5hex pre tess image =
      ({ e with
          last_text := ocrBest tess processed,
          last_image_hash := some (calculate_image_hash md5hex image) },
        ocrBest tess processed, true, false) := by
  rw [OCREngine.extract_text, if_neg h, hpre]

/-- C10: OCR results are memoized per frame content.  If a call to
`extract_text` completes without hitting the generic exception handler, an
immediately following call on an image with identical raw pixel bytes (hence
an identical stored hash) returns the very same string, does not invoke
tesseract, and leaves the engine state unchanged. -/
theorem claim_C10_ocr_memoized (md5hex : List Nat → List Char)
    (pre : PyImage → Option PyImage) (tess : PyImage → Nat → Option (List Char))
    (e : OCREngine) (image1 image2 : PyImage)
    (hbytes : image2.bytes = image1.bytes)
    (hok : (e.extract_text md5hex pre tess image1).2.2.2 = false) :
    (e.extract_text md5hex pre tess image1).1.extract_text md5hex pre tess image2 =
      ((e.extract_text md5hex pre tess image1).1,
        (e.extract_text md5hex pre tess image1).2.1, false, false) := by
  have hsame : calculate_image_hash md5hex image2 = calculate_image_hash md5hex image1 := by
    rw [calculate_image_hash, calculate_image_hash, hbytes]
  by_cases hhit : e.last_image_hash = some (calculate_image_hash md5hex image1)
  · rw [extract_text_hash_hit hhit]
    exact extract_text_hash_hit (by rw [hsame]; exact hhit)
  · cases hpre : (if e.preprocess then pre image1 else some image1) with
    | none =>
      rw [extract_text_pre_fail hhit hpre] at hok
      simp at hok
    | some processed =>
      rw [extract_text_run hhit hpre]
      exact extract_text_hash_hit (by
        show some (calculate_image_hash md5hex image1) =
          some (calculate_image_hash md5hex image2)
        rw [hsame])

/-- Witness for C10 at a concrete input: a fresh engine, a constant hash
oracle, a succeeding preprocessor and tesseract. -/
theorem claim_C10_witness :
    ((OCREngine.mk true [] none).extract_text (fun _ => []) (fun i => some i)
        (fun _ _ => some "hi".data) (PyImage.mk 1 1 [0])).1.extract_text
        (fun _ => []) (fun i => some i) (fun _ _ => some "hi".data) (PyImage.mk 1 1 [0]) =
      (((OCREngine.mk true [] none).extract_text (fun _ => []) (fun i => some i)
          (fun _ _ => some "hi".data) (PyImage.mk 1 1 [0])).1,
        ((OCREngine.mk true [] none).extract_text (fun _ => []) (fun i => some i)
          (fun _ _ => some "hi".data) (PyImage.mk 1 1 [0])).2.1, false, false) :=
  claim_C10_ocr_memoized (fun _ => []) (fun i => some i) (fun _ _ => some "hi".data)
    (OCREngine.mk true [] none) (PyImage.mk 1 1 [0]) (PyImage.mk 1 1 [0]) rfl (by decide)
